import Mathlib

/-!
Shallow embedding of the mbedtls low-level modular bignum interface
(library/bignum_mod_raw.h).  The tree holds only the header, i.e. the
declarations and their documentation; every function body is therefore
modelled from the specification document, at the level of the numeric
values represented by the little-endian limb arrays.  Values are
natural numbers, a limb array of width L represents a number below
2 ^ (biL * L), and byte buffers are lists of bytes.
-/

namespace BignumModRaw

/-- Bits per limb: the width of mbedtls_mpi_uint on a 64-bit platform. -/
def biL : Nat := 64

/-- Bytes per limb. -/
def ciL : Nat := 8

/-- The Montgomery base R = 2 ^ (biL * L) for L-limb values. -/
def limbR (L : Nat) : Nat := 2 ^ (biL * L)

/-- Modelled from the spec: the mbedtls_mpi_mod_modulus descriptor (declared
in bignum_mod.h, which is not in the source tree).  It carries a fixed limb
count, the value of the modulus, and the precomputed Montgomery constant RR. -/
structure Modulus where
  limbs : Nat
  p : Nat
  rr : Nat

/-- Validity of a modulus descriptor as the spec assumes it: at least one
limb, a modulus above one that is odd and fits the declared width, and RR
precomputed as R^2 mod p. -/
def Modulus.Valid (m : Modulus) : Prop :=
  1 ≤ m.limbs ∧ 1 < m.p ∧ m.p % 2 = 1 ∧ m.p < limbR m.limbs ∧
    m.rr = limbR m.limbs ^ 2 % m.p

/-- The inverse of 2 modulo an odd modulus N, namely (N + 1) / 2. -/
def halfOdd (N : Nat) : Nat := (N + 1) / 2

/-- A representative of the inverse of 2^k modulo an odd modulus N, computed
as the k-th power of the inverse of 2. -/
def rInv (k N : Nat) : Nat := halfOdd N ^ k % N

/-- Modelled from the spec: the Montgomery multiplication primitive that the
missing bignum_core.c supplies to this module.  On values it sends x, y to
x * y * R⁻¹ mod p, which is what Montgomery reduction of the product
computes. -/
def mont_mul (m : Modulus) (x y : Nat) : Nat :=
  x * y * rInv (biL * m.limbs) m.p % m.p

/-- Modelled from the spec: the body of mbedtls_mpi_mod_raw_to_mont_rep
(bignum_mod_raw.c is absent).  Per the spec it performs a Montgomery
multiplication of X by the precomputed RR constant carried on m. -/
def mbedtls_mpi_mod_raw_to_mont_rep (X : Nat) (m : Modulus) : Nat :=
  mont_mul m X m.rr

/-- Modelled from the spec: the body of mbedtls_mpi_mod_raw_from_mont_rep
(bignum_mod_raw.c is absent).  Per the spec it is a Montgomery reduction
with multiplier 1. -/
def mbedtls_mpi_mod_raw_from_mont_rep (X : Nat) (m : Modulus) : Nat :=
  mont_mul m X 1

/-- Montgomery-form exponentiation: the base is in Montgomery form, the
result is in Montgomery form, and every step is a Montgomery
multiplication.  The exponent 0 yields the Montgomery form of 1, R mod p. -/
def mont_exp (m : Modulus) (b : Nat) : Nat → Nat
  | 0 => limbR m.limbs % m.p
  | e + 1 => mont_mul m b (mont_exp m b e)

/-- Modelled from the spec: the scratch-limb count of
mbedtls_mpi_mod_raw_inv_prime_working_limbs (bignum_mod_raw.c is absent).
The spec fixes it only as an implementation-defined function of AN_limbs;
the value-level model needs working storage for two temporaries. -/
def mbedtls_mpi_mod_raw_inv_prime_working_limbs (AN_limbs : Nat) : Nat :=
  2 * AN_limbs

/-- Modelled from the spec: the body of mbedtls_mpi_mod_raw_inv_prime
(bignum_mod_raw.c is absent).  Per the spec it exploits Fermat's little
theorem, computing A^(N-2) mod N via Montgomery-form modular
exponentiation; input and output are in Montgomery form. -/
def mbedtls_mpi_mod_raw_inv_prime (A N AN_limbs RR : Nat) : Nat :=
  mont_exp ⟨AN_limbs, N, RR⟩ A (N - 2)

/-- Modelled from the spec: the body of mbedtls_mpi_mod_raw_add
(bignum_mod_raw.c is absent).  Per the spec: limb-wise addition producing a
carry, an unconditional trial subtraction of N, then a constant-time
selection between the pre- and post-subtraction results driven by the carry
and the comparison outcome. -/
def mbedtls_mpi_mod_raw_add (A B : Nat) (N : Modulus) : Nat :=
  let R := limbR N.limbs
  let sum := A + B
  let carry := sum / R
  let pre := sum % R
  let post := (pre + R - N.p) % R
  if carry = 1 ∨ N.p ≤ pre then post else pre

/-- Modelled from the spec: the body of mbedtls_mpi_mod_raw_sub
(bignum_mod_raw.c is absent).  Per the spec: limb-wise subtraction
producing a borrow, then a constant-time conditional addition of N back in
when the raw subtraction underflowed. -/
def mbedtls_mpi_mod_raw_sub (A B : Nat) (N : Modulus) : Nat :=
  let R := limbR N.limbs
  let diff := (A + R - B) % R
  if A < B then (diff + N.p) % R else diff

/-- Modelled from the spec: the body of mbedtls_mpi_mod_raw_neg
(bignum_mod_raw.c is absent).  Per the spec: the raw subtraction m - A
(no borrow, since A ≤ m), then the same conditional-correction step as sub,
which maps the result m arising from A = 0 back to 0 without branching on
whether A is zero. -/
def mbedtls_mpi_mod_raw_neg (A : Nat) (m : Modulus) : Nat :=
  let R := limbR m.limbs
  let d := (m.p + R - A) % R
  let d2 := (d + R - m.p) % R
  if d < m.p then (d2 + m.p) % R else d2

/-- Modelled from the spec: the mbedtls_mpi_mod_ext_rep enumeration
(declared in bignum_mod.h, which is not in the source tree): the requested
endianness of the external byte representation, or an invalid tag. -/
inductive ExtRep where
  | le
  | be
  | invalid
deriving DecidableEq

/-- The value of a little-endian byte string. -/
def bytesToNatLE : List Nat → Nat
  | [] => 0
  | b :: bs => b + 256 * bytesToNatLE bs

/-- The k-byte little-endian representation of v (truncating above byte k). -/
def natToBytesLE (v : Nat) : Nat → List Nat
  | 0 => []
  | k + 1 => v % 256 :: natToBytesLE (v / 256) k

/-- The number of significant bytes of a little-endian byte string: the
length once trailing zero bytes are stripped. -/
def sigBytesLE : List Nat → Nat
  | [] => 0
  | b :: bs =>
    let s := sigBytesLE bs
    if s = 0 ∧ b = 0 then 0 else s + 1

/-- The value of a byte string under the selected endianness. -/
def bytesToNat (er : ExtRep) (bs : List Nat) : Nat :=
  match er with
  | .le => bytesToNatLE bs
  | .be => bytesToNatLE bs.reverse
  | .invalid => 0

/-- The k-byte representation of v under the selected endianness. -/
def natToBytes (er : ExtRep) (v k : Nat) : List Nat :=
  match er with
  | .le => natToBytesLE v k
  | .be => (natToBytesLE v k).reverse
  | .invalid => []

/-- The number of significant bytes of a byte string under the selected
endianness: trailing zeros are insignificant in little-endian input,
leading zeros in big-endian input. -/
def sigBytes (er : ExtRep) (bs : List Nat) : Nat :=
  match er with
  | .le => sigBytesLE bs
  | .be => sigBytesLE bs.reverse
  | .invalid => 0

/-- Outcome of mbedtls_mpi_mod_raw_read: the decoded value, or one of the
two documented error statuses. -/
inductive ReadResult where
  | ok (X : Nat)
  | bufferTooSmall
  | badInputData
deriving DecidableEq

/-- Outcome of mbedtls_mpi_mod_raw_write: the produced byte string, or one
of the two documented error statuses. -/
inductive WriteResult where
  | ok (output : List Nat)
  | bufferTooSmall
  | badInputData
deriving DecidableEq

/-- Modelled from the spec: the body of mbedtls_mpi_mod_raw_read
(bignum_mod_raw.c is absent).  An invalid external representation tag is
BadInputData; input whose significant bytes exceed the capacity of the
L-limb destination is BufferTooSmall; a decoded value not below the modulus
is BadInputData; otherwise the decoded value, zero-padded to full width. -/
def mbedtls_mpi_mod_raw_read (m : Modulus) (input : List Nat)
    (ext_rep : ExtRep) : ReadResult :=
  if ext_rep = ExtRep.invalid then ReadResult.badInputData
  else if m.limbs * ciL < sigBytes ext_rep input then ReadResult.bufferTooSmall
  else if bytesToNat ext_rep input < m.p then ReadResult.ok (bytesToNat ext_rep input)
  else ReadResult.badInputData

/-- Modelled from the spec: the body of mbedtls_mpi_mod_raw_write
(bignum_mod_raw.c is absent).  An invalid external representation tag is
BadInputData; an output length insufficient for the full declared width of
A (the L limbs dictated by m) is BufferTooSmall; otherwise exactly
output_length bytes in the requested endianness, zero-padded above the
significant bytes of A. -/
def mbedtls_mpi_mod_raw_write (A : Nat) (m : Modulus) (output_length : Nat)
    (ext_rep : ExtRep) : WriteResult :=
  if ext_rep = ExtRep.invalid then WriteResult.badInputData
  else if output_length < m.limbs * ciL then WriteResult.bufferTooSmall
  else WriteResult.ok (natToBytes ext_rep A output_length)

/-! A small limb-granular memory model, used to state which buffers each
operation writes.  A memory maps addresses to limb (or byte) contents; the
pointer parameters of the C functions become base addresses of regions. -/

/-- Memory: limb contents indexed by address. -/
def Mem : Type := Nat → Nat

/-- The contents of the len-limb region based at addr. -/
def readRange (mem : Mem) (addr len : Nat) : List Nat :=
  (List.range len).map fun i => mem (addr + i)

/-- Overwrite the region based at addr with the given limb list, leaving
every other address untouched. -/
def writeRange (mem : Mem) (addr : Nat) (vals : List Nat) : Mem :=
  fun i => if addr ≤ i ∧ i < addr + vals.length then vals.getD (i - addr) 0 else mem i

/-- The value of a little-endian limb array. -/
def limbsToNat : List Nat → Nat
  | [] => 0
  | a :: as => a + 2 ^ biL * limbsToNat as

/-- The L-limb little-endian array of v (truncating above limb L). -/
def natToLimbs (v : Nat) : Nat → List Nat
  | 0 => []
  | k + 1 => v % 2 ^ biL :: natToLimbs (v / 2 ^ biL) k

/-- Modelled from the spec: mbedtls_mpi_mod_raw_add acting on memory.  The
const operands A and B are read, the result is written to the X region
only (the header declares A, B and N const). -/
def mbedtls_mpi_mod_raw_add_mem (mem : Mem) (xA aA bA : Nat) (N : Modulus) : Mem :=
  let a := limbsToNat (readRange mem aA N.limbs)
  let b := limbsToNat (readRange mem bA N.limbs)
  writeRange mem xA (natToLimbs (mbedtls_mpi_mod_raw_add a b N) N.limbs)

/-- Modelled from the spec: mbedtls_mpi_mod_raw_sub acting on memory;
writes the X region only. -/
def mbedtls_mpi_mod_raw_sub_mem (mem : Mem) (xA aA bA : Nat) (N : Modulus) : Mem :=
  let a := limbsToNat (readRange mem aA N.limbs)
  let b := limbsToNat (readRange mem bA N.limbs)
  writeRange mem xA (natToLimbs (mbedtls_mpi_mod_raw_sub a b N) N.limbs)

/-- Modelled from the spec: mbedtls_mpi_mod_raw_neg acting on memory;
writes the X region only. -/
def mbedtls_mpi_mod_raw_neg_mem (mem : Mem) (xA aA : Nat) (m : Modulus) : Mem :=
  let a := limbsToNat (readRange mem aA m.limbs)
  writeRange mem xA (natToLimbs (mbedtls_mpi_mod_raw_neg a m) m.limbs)

/-- Modelled from the spec: mbedtls_mpi_mod_raw_write acting on memory.
The const operand A is read; on success the output byte region is written,
on error nothing is written. -/
def mbedtls_mpi_mod_raw_write_mem (mem : Mem) (aA : Nat) (m : Modulus)
    (outA output_length : Nat) (ext_rep : ExtRep) : Mem :=
  let a := limbsToNat (readRange mem aA m.limbs)
  match mbedtls_mpi_mod_raw_write a m output_length ext_rep with
  | .ok bytes => writeRange mem outA bytes
  | _ => mem

/-- Modelled from the spec: mbedtls_mpi_mod_raw_inv_prime acting on memory.
The const operands A, N and RR are read; the scratch region T (whose final
content the header leaves indeterminate, modelled here as zeroed) and the
X region are the only regions written. -/
def mbedtls_mpi_mod_raw_inv_prime_mem (mem : Mem) (xA aA nA : Nat)
    (AN_limbs : Nat) (rrA tA : Nat) : Mem :=
  let a := limbsToNat (readRange mem aA AN_limbs)
  let n := limbsToNat (readRange mem nA AN_limbs)
  let rr := limbsToNat (readRange mem rrA AN_limbs)
  let tlen := mbedtls_mpi_mod_raw_inv_prime_working_limbs AN_limbs
  let mem1 := writeRange mem tA (List.replicate tlen 0)
  writeRange mem1 xA (natToLimbs (mbedtls_mpi_mod_raw_inv_prime a n AN_limbs rr) AN_limbs)

/-! Helper lemmas: the inverse of the Montgomery base modulo an odd modulus. -/

theorem limbR_pos (L : Nat) : 0 < limbR L := Nat.pos_pow_of_pos _ (by omega)

theorem halfOdd_mul (N : Nat) (hodd : N % 2 = 1) : 2 * halfOdd N = N + 1 := by
  unfold halfOdd; omega

theorem two_mul_halfOdd_modEq (N : Nat) (hodd : N % 2 = 1) :
    2 * halfOdd N ≡ 1 [MOD N] := by
  rw [halfOdd_mul N hodd]
  exact Nat.add_mod_left N 1

theorem pow_rInv_modEq (k N : Nat) (hodd : N % 2 = 1) :
    2 ^ k * rInv k N ≡ 1 [MOD N] := by
  have h1 : (2 * halfOdd N) ^ k ≡ 1 ^ k [MOD N] := (two_mul_halfOdd_modEq N hodd).pow k
  rw [mul_pow, one_pow] at h1
  have h2 : 2 ^ k * rInv k N ≡ 2 ^ k * halfOdd N ^ k [MOD N] :=
    Nat.ModEq.mul_left _ (Nat.mod_modEq _ N)
  exact h2.trans h1

theorem nat_eq_of_zmod_eq {p a b : Nat}
    (h : (a : ZMod p) = (b : ZMod p)) (ha : a < p) (hb : b < p) : a = b := by
  have h2 := congrArg ZMod.val h
  rwa [ZMod.val_cast_of_lt ha, ZMod.val_cast_of_lt hb] at h2

theorem zmod_R_rInv (m : Modulus) (hodd : m.p % 2 = 1) :
    ((limbR m.limbs : Nat) : ZMod m.p) *
      ((rInv (biL * m.limbs) m.p : Nat) : ZMod m.p) = 1 := by
  have h := (ZMod.natCast_eq_natCast_iff _ _ _).mpr
    (pow_rInv_modEq (biL * m.limbs) m.p hodd)
  rw [limbR]
  push_cast at h ⊢
  exact h

theorem mont_mul_lt (m : Modulus) (hp : 0 < m.p) (x y : Nat) :
    mont_mul m x y < m.p := Nat.mod_lt _ hp

theorem mont_exp_cast (m : Modulus) (b e : Nat) :
    ((mont_exp m b e : Nat) : ZMod m.p) =
      ((b : ZMod m.p) * ((rInv (biL * m.limbs) m.p : Nat) : ZMod m.p)) ^ e *
        ((limbR m.limbs : Nat) : ZMod m.p) := by
  induction e with
  | zero => simp [mont_exp, ZMod.natCast_mod]
  | succ e ih =>
    simp only [mont_exp, mont_mul]
    rw [ZMod.natCast_mod]
    push_cast
    rw [ih]
    ring

/-- Claim C5: for every valid (odd) modulus m and every plain-form value
A < m, applying to_mont_rep and then from_mont_rep returns exactly the
original value A, and the two Montgomery transforms are mutually inverse
on the interval from 0 to m. -/
theorem c5_mont_round_trip (m : Modulus) (A : Nat) (hm : m.Valid) (hA : A < m.p) :
    mbedtls_mpi_mod_raw_from_mont_rep (mbedtls_mpi_mod_raw_to_mont_rep A m) m = A ∧
    mbedtls_mpi_mod_raw_to_mont_rep (mbedtls_mpi_mod_raw_from_mont_rep A m) m = A := by
  obtain ⟨hL, hp1, hodd, hltR, hrr⟩ := hm
  have hp0 : 0 < m.p := by omega
  have hinv := zmod_R_rInv m hodd
  constructor
  · apply nat_eq_of_zmod_eq ?h1 (mont_mul_lt m hp0 _ _) hA
    simp only [mbedtls_mpi_mod_raw_from_mont_rep, mbedtls_mpi_mod_raw_to_mont_rep,
      mont_mul]
    rw [hrr, ZMod.natCast_mod]
    push_cast [ZMod.natCast_mod]
    linear_combination (((A : ZMod m.p)) *
      (((limbR m.limbs : Nat) : ZMod m.p) *
        ((rInv (biL * m.limbs) m.p : Nat) : ZMod m.p) + 1)) * hinv
  · apply nat_eq_of_zmod_eq ?h2 (mont_mul_lt m hp0 _ _) hA
    simp only [mbedtls_mpi_mod_raw_to_mont_rep, mbedtls_mpi_mod_raw_from_mont_rep,
      mont_mul]
    rw [hrr, ZMod.natCast_mod]
    push_cast [ZMod.natCast_mod]
    linear_combination (((A : ZMod m.p)) *
      (((limbR m.limbs : Nat) : ZMod m.p) *
        ((rInv (biL * m.limbs) m.p : Nat) : ZMod m.p) + 1)) * hinv

/-! Helper lemmas: closed formulas for the additive operations. -/

theorem add_formula (A B : Nat) (N : Modulus) (hA : A < N.p) (hB : B < N.p)
    (hR : N.p < limbR N.limbs) :
    mbedtls_mpi_mod_raw_add A B N = (A + B) % N.p := by
  simp only [mbedtls_mpi_mod_raw_add]
  have hp0 : 0 < N.p := by omega
  rcases Nat.lt_or_ge (A + B) (limbR N.limbs) with h | h
  · rw [Nat.div_eq_of_lt h, Nat.mod_eq_of_lt h]
    by_cases hNp : N.p ≤ A + B
    · rw [if_pos (Or.inr hNp)]
      have h1 : A + B + limbR N.limbs - N.p = A + B - N.p + limbR N.limbs := by omega
      rw [h1, Nat.add_mod_right, Nat.mod_eq_of_lt (by omega),
        Nat.mod_eq_sub_mod hNp, Nat.mod_eq_of_lt (by omega)]
    · rw [if_neg (by omega), Nat.mod_eq_of_lt (by omega)]
  · have h2R : A + B < 2 * limbR N.limbs := by omega
    have hc : (A + B) / limbR N.limbs = 1 :=
      Nat.div_eq_of_lt_le (by omega) (by omega)
    have hpre : (A + B) % limbR N.limbs = A + B - limbR N.limbs := by
      rw [Nat.mod_eq_sub_mod h, Nat.mod_eq_of_lt (by omega)]
    rw [hc, hpre, if_pos (Or.inl rfl)]
    have hNle : N.p ≤ A + B := by omega
    have h1 : A + B - limbR N.limbs + limbR N.limbs - N.p = A + B - N.p := by omega
    rw [h1, Nat.mod_eq_of_lt (by omega), Nat.mod_eq_sub_mod hNle,
      Nat.mod_eq_of_lt (by omega)]

theorem sub_formula (A B : Nat) (N : Modulus) (hA : A < N.p) (hB : B < N.p)
    (hR : N.p < limbR N.limbs) :
    mbedtls_mpi_mod_raw_sub A B N = (A + N.p - B) % N.p := by
  simp only [mbedtls_mpi_mod_raw_sub]
  by_cases h : A < B
  · rw [if_pos h]
    have h1 : A + limbR N.limbs - B = A + limbR N.limbs - B := rfl
    have h2 : (A + limbR N.limbs - B) % limbR N.limbs = A + limbR N.limbs - B :=
      Nat.mod_eq_of_lt (by omega)
    rw [h2]
    have h3 : A + limbR N.limbs - B + N.p = A + N.p - B + limbR N.limbs := by omega
    rw [h3, Nat.add_mod_right, Nat.mod_eq_of_lt (by omega),
      Nat.mod_eq_of_lt (by omega)]
  · rw [if_neg h]
    have h1 : A + limbR N.limbs - B = A - B + limbR N.limbs := by omega
    rw [h1, Nat.add_mod_right, Nat.mod_eq_of_lt (by omega)]
    have h2 : A + N.p - B = A - B + N.p := by omega
    rw [h2, Nat.add_mod_right, Nat.mod_eq_of_lt (by omega)]

theorem neg_formula (A : Nat) (m : Modulus) (hA : A ≤ m.p)
    (hR : m.p < limbR m.limbs) :
    mbedtls_mpi_mod_raw_neg A m = if A = 0 then 0 else m.p - A := by
  simp only [mbedtls_mpi_mod_raw_neg]
  have hd : (m.p + limbR m.limbs - A) % limbR m.limbs = m.p - A := by
    have h1 : m.p + limbR m.limbs - A = m.p - A + limbR m.limbs := by omega
    rw [h1, Nat.add_mod_right, Nat.mod_eq_of_lt (by omega)]
  rw [hd]
  by_cases h0 : A = 0
  · subst h0
    rw [Nat.sub_zero, if_neg (by omega), if_pos rfl]
    have h1 : m.p + limbR m.limbs - m.p = limbR m.limbs := by omega
    rw [h1, Nat.mod_self]
  · rw [if_neg h0, if_pos (by omega)]
    have h1 : m.p - A + limbR m.limbs - m.p = limbR m.limbs - A := by omega
    rw [h1]
    have h2 : (limbR m.limbs - A) % limbR m.limbs = limbR m.limbs - A :=
      Nat.mod_eq_of_lt (by omega)
    rw [h2]
    have h3 : limbR m.limbs - A + m.p = m.p - A + limbR m.limbs := by omega
    rw [h3, Nat.add_mod_right]
    exact Nat.mod_eq_of_lt (by omega)

/-- A one-limb modulus descriptor with value 13, as in the spec's concrete
additive scenario. -/
def m13 : Modulus := ⟨1, 13, limbR 1 ^ 2 % 13⟩

/-- A one-limb prime modulus descriptor with value 7, as in the spec's
concrete Montgomery and inversion scenario. -/
def m7 : Modulus := ⟨1, 7, limbR 1 ^ 2 % 7⟩

/-- Claim C3: for every modulus N and operands A, B below N, add computes
the residue (A + B) mod N, and the result is again strictly below N. -/
theorem c3_add_correct (A B : Nat) (N : Modulus) (hA : A < N.p) (hB : B < N.p)
    (hR : N.p < limbR N.limbs) :
    mbedtls_mpi_mod_raw_add A B N = (A + B) % N.p ∧
    mbedtls_mpi_mod_raw_add A B N < N.p := by
  have h := add_formula A B N hA hB hR
  exact ⟨h, h ▸ Nat.mod_lt _ (by omega)⟩

/-- Witness for C3 at the spec's concrete scenario N = 13, A = 9, B = 11,
whose result is 7. -/
theorem c3_add_correct_witness :
    mbedtls_mpi_mod_raw_add 9 11 m13 = (9 + 11) % 13 ∧
    mbedtls_mpi_mod_raw_add 9 11 m13 < 13 ∧ (9 + 11) % 13 = 7 :=
  ⟨(c3_add_correct 9 11 m13 (by decide) (by decide) (by decide)).1,
   (c3_add_correct 9 11 m13 (by decide) (by decide) (by decide)).2, by decide⟩

/-- Claim C4: for every modulus N and operands A, B below N, sub computes
the residue (A - B) mod N (stated both as the Nat formula (A + N - B) mod N
and as the integer remainder), the result is below N, and adding B back
returns A exactly. -/
theorem c4_sub_correct (A B : Nat) (N : Modulus) (hA : A < N.p) (hB : B < N.p)
    (hR : N.p < limbR N.limbs) :
    mbedtls_mpi_mod_raw_sub A B N = (A + N.p - B) % N.p ∧
    ((mbedtls_mpi_mod_raw_sub A B N : Int) = ((A : Int) - (B : Int)) % (N.p : Int)) ∧
    mbedtls_mpi_mod_raw_sub A B N < N.p ∧
    mbedtls_mpi_mod_raw_add (mbedtls_mpi_mod_raw_sub A B N) B N = A := by
  have hp0 : 0 < N.p := by omega
  have hs := sub_formula A B N hA hB hR
  have hlt : mbedtls_mpi_mod_raw_sub A B N < N.p := by
    rw [hs]; exact Nat.mod_lt _ hp0
  refine ⟨hs, ?_, hlt, ?_⟩
  · rw [hs, Int.natCast_mod]
    have hc : ((A + N.p - B : Nat) : Int) = (A : Int) + (N.p : Int) - (B : Int) := by
      have hBle : B ≤ A + N.p := by omega
      push_cast [hBle]
      ring
    rw [hc]
    have h2 : (A : Int) + (N.p : Int) - (B : Int) = (A : Int) - (B : Int) + (N.p : Int) * 1 := by
      ring
    rw [h2, Int.add_mul_emod_self_left]
  · rw [add_formula _ B N hlt hB hR, hs]
    have h1 : (A + N.p - B) % N.p + B ≡ A + N.p - B + B [MOD N.p] :=
      Nat.ModEq.add_right B (Nat.mod_modEq _ N.p)
    rw [h1]
    have h2 : A + N.p - B + B = A + N.p := by omega
    rw [h2, Nat.add_mod_right]
    exact Nat.mod_eq_of_lt hA

/-- Witness for C4 at the spec's concrete scenario N = 13, A = 9, B = 11,
whose result is 11. -/
theorem c4_sub_correct_witness :
    mbedtls_mpi_mod_raw_sub 9 11 m13 = (9 + 13 - 11) % 13 ∧
    ((mbedtls_mpi_mod_raw_sub 9 11 m13 : Int) = ((9 : Int) - (11 : Int)) % (13 : Int)) ∧
    mbedtls_mpi_mod_raw_sub 9 11 m13 < 13 ∧
    mbedtls_mpi_mod_raw_add (mbedtls_mpi_mod_raw_sub 9 11 m13) 11 m13 = 9 ∧
    (9 + 13 - 11) % 13 = 11 :=
  ⟨(c4_sub_correct 9 11 m13 (by decide) (by decide) (by decide)).1,
   (c4_sub_correct 9 11 m13 (by decide) (by decide) (by decide)).2.1,
   (c4_sub_correct 9 11 m13 (by decide) (by decide) (by decide)).2.2.1,
   (c4_sub_correct 9 11 m13 (by decide) (by decide) (by decide)).2.2.2, by decide⟩

/-- Claim C6: for every modulus m and operand A with A at most m (equality
permitted), neg yields 0 when A = 0 and m - A otherwise, and applying neg
twice to an A strictly below m returns A. -/
theorem c6_neg_correct (A : Nat) (m : Modulus) (hA : A ≤ m.p)
    (hR : m.p < limbR m.limbs) :
    mbedtls_mpi_mod_raw_neg A m = (if A = 0 then 0 else m.p - A) ∧
    (A < m.p → mbedtls_mpi_mod_raw_neg (mbedtls_mpi_mod_raw_neg A m) m = A) := by
  have h := neg_formula A m hA hR
  refine ⟨h, fun hAlt => ?_⟩
  rw [h]
  by_cases h0 : A = 0
  · rw [if_pos h0, neg_formula 0 m (by omega) hR, if_pos rfl]
    omega
  · rw [if_neg h0, neg_formula (m.p - A) m (by omega) hR, if_neg (by omega)]
    omega

/-- Witness for C6 at the spec's concrete scenario m = 13, A = 9, whose
result is 4. -/
theorem c6_neg_correct_witness :
    mbedtls_mpi_mod_raw_neg 9 m13 = (if (9 : Nat) = 0 then 0 else 13 - 9) ∧
    (9 < 13 → mbedtls_mpi_mod_raw_neg (mbedtls_mpi_mod_raw_neg 9 m13) m13 = 9) ∧
    (if (9 : Nat) = 0 then (0 : Nat) else 13 - 9) = 4 :=
  ⟨(c6_neg_correct 9 m13 (by decide) (by decide)).1,
   fun _ => (c6_neg_correct 9 m13 (by decide) (by decide)).2 (by decide), by decide⟩

/-- Witness for C5 at the spec's concrete scenario m = 7, A = 3: the
Montgomery round trip returns 3. -/
theorem c5_mont_round_trip_witness :
    mbedtls_mpi_mod_raw_from_mont_rep (mbedtls_mpi_mod_raw_to_mont_rep 3 m7) m7 = 3 ∧
    mbedtls_mpi_mod_raw_to_mont_rep (mbedtls_mpi_mod_raw_from_mont_rep 3 m7) m7 = 3 :=
  c5_mont_round_trip m7 3 ⟨by decide, by decide, by decide, by decide, rfl⟩ (by decide)

/-- Claim C1: for every valid prime modulus with correctly precomputed RR
and every nonzero value a below the modulus, inv_prime applied to the
Montgomery form of a produces the Montgomery form of the inverse of a:
taking the result out of Montgomery form and multiplying by a yields 1
modulo the modulus. -/
theorem c1_inv_prime_correct (m : Modulus) (a : Nat) (hm : m.Valid)
    (hp : Nat.Prime m.p) (ha : a < m.p) (ha0 : a ≠ 0) :
    (mbedtls_mpi_mod_raw_from_mont_rep
        (mbedtls_mpi_mod_raw_inv_prime
          (mbedtls_mpi_mod_raw_to_mont_rep a m) m.p m.limbs m.rr) m
      * a) % m.p = 1 := by
  obtain ⟨hL, hp1, hodd, hltR, hrr⟩ := hm
  have hp0 : 0 < m.p := by omega
  haveI : Fact (Nat.Prime m.p) := ⟨hp⟩
  have hinv := zmod_R_rInv m hodd
  have haz : (a : ZMod m.p) ≠ 0 := by
    intro h0
    have h2 := congrArg ZMod.val h0
    rw [ZMod.val_cast_of_lt ha, ZMod.val_zero] at h2
    exact ha0 h2
  have hferm : (a : ZMod m.p) ^ (m.p - 1) = 1 := ZMod.pow_card_sub_one_eq_one haz
  have hpow : (a : ZMod m.p) ^ (m.p - 2) * (a : ZMod m.p) = (a : ZMod m.p) ^ (m.p - 1) := by
    rw [← pow_succ]
    congr 1
    have := hp.two_le
    omega
  have hbase : ((mbedtls_mpi_mod_raw_to_mont_rep a m : Nat) : ZMod m.p) *
      ((rInv (biL * m.limbs) m.p : Nat) : ZMod m.p) = (a : ZMod m.p) := by
    simp only [mbedtls_mpi_mod_raw_to_mont_rep, mont_mul]
    rw [hrr, ZMod.natCast_mod]
    push_cast [ZMod.natCast_mod]
    linear_combination ((a : ZMod m.p) *
      (((limbR m.limbs : Nat) : ZMod m.p) *
        ((rInv (biL * m.limbs) m.p : Nat) : ZMod m.p) + 1)) * hinv
  refine nat_eq_of_zmod_eq ?_ (Nat.mod_lt _ hp0) hp1
  rw [ZMod.natCast_mod]
  simp only [mbedtls_mpi_mod_raw_from_mont_rep, mont_mul,
    mbedtls_mpi_mod_raw_inv_prime]
  rw [show (⟨m.limbs, m.p, m.rr⟩ : Modulus) = m from rfl]
  push_cast [ZMod.natCast_mod]
  rw [mont_exp_cast, hbase]
  linear_combination
    (((limbR m.limbs : Nat) : ZMod m.p) *
      ((rInv (biL * m.limbs) m.p : Nat) : ZMod m.p)) * hpow +
    ((a : ZMod m.p) ^ (m.p - 1)) * hinv + hferm

/-- Witness for C1 at the spec's concrete scenario N = 7, A = 3: the
inverse is 5 since 3 * 5 = 15 is congruent to 1 modulo 7. -/
theorem c1_inv_prime_correct_witness :
    (mbedtls_mpi_mod_raw_from_mont_rep
        (mbedtls_mpi_mod_raw_inv_prime
          (mbedtls_mpi_mod_raw_to_mont_rep 3 m7) m7.p m7.limbs m7.rr) m7
      * 3) % m7.p = 1 ∧
    mbedtls_mpi_mod_raw_from_mont_rep
        (mbedtls_mpi_mod_raw_inv_prime
          (mbedtls_mpi_mod_raw_to_mont_rep 3 m7) m7.p m7.limbs m7.rr) m7 = 5 :=
  ⟨c1_inv_prime_correct m7 3 ⟨by decide, by decide, by decide, by decide, rfl⟩
      (by decide) (by decide) (by decide), by decide⟩

/-! Helper lemmas: the byte codec. -/

theorem length_natToBytesLE (v k : Nat) : (natToBytesLE v k).length = k := by
  induction k generalizing v with
  | zero => rfl
  | succ k ih => simp [natToBytesLE, ih]

theorem mem_natToBytesLE_lt (v k : Nat) : ∀ b ∈ natToBytesLE v k, b < 256 := by
  induction k generalizing v with
  | zero => intro b hb; simp [natToBytesLE] at hb
  | succ k ih =>
    intro b hb
    simp only [natToBytesLE, List.mem_cons] at hb
    rcases hb with h | h
    · exact h ▸ Nat.mod_lt _ (by omega)
    · exact ih (v / 256) b h

theorem bytesToNatLE_natToBytesLE (v k : Nat) (h : v < 256 ^ k) :
    bytesToNatLE (natToBytesLE v k) = v := by
  induction k generalizing v with
  | zero =>
    simp only [natToBytesLE, bytesToNatLE]
    simp only [pow_zero] at h
    omega
  | succ k ih =>
    have hlt : v / 256 < 256 ^ k := by
      rw [Nat.div_lt_iff_lt_mul (by omega)]
      rw [pow_succ] at h
      exact h
    simp only [natToBytesLE, bytesToNatLE]
    rw [ih (v / 256) hlt]
    omega

theorem sigBytesLE_le_length (bs : List Nat) : sigBytesLE bs ≤ bs.length := by
  induction bs with
  | nil => simp [sigBytesLE]
  | cons b bs ih =>
    simp only [sigBytesLE, List.length_cons]
    by_cases h : sigBytesLE bs = 0 ∧ b = 0
    · rw [if_pos h]; omega
    · rw [if_neg h]; omega

theorem bytesToNatLE_lt_iff (bs : List Nat) (hb : ∀ b ∈ bs, b < 256) (k : Nat) :
    bytesToNatLE bs < 256 ^ k ↔ sigBytesLE bs ≤ k := by
  induction bs generalizing k with
  | nil =>
    simp only [bytesToNatLE, sigBytesLE]
    constructor
    · intro _; omega
    · intro _; exact Nat.pos_pow_of_pos k (by omega)
  | cons b bs ih =>
    have hbb : b < 256 := hb b (List.mem_cons_self b bs)
    have hbs : ∀ x ∈ bs, x < 256 := fun x hx => hb x (List.mem_cons_of_mem b hx)
    have hV := ih hbs
    simp only [bytesToNatLE, sigBytesLE]
    by_cases hs : sigBytesLE bs = 0 ∧ b = 0
    · rw [if_pos hs]
      have hV0 : bytesToNatLE bs = 0 := by
        have h1 := (hV 0).mpr (le_of_eq hs.1)
        simpa using h1
      rw [hs.2, hV0]
      constructor
      · intro _; exact Nat.zero_le k
      · intro _; simp
    · rw [if_neg hs]
      cases k with
      | zero =>
        have hV1 := hV 0
        simp only [pow_zero] at hV1 ⊢
        omega
      | succ k =>
        have hV1 := hV k
        rw [pow_succ]
        obtain ⟨P, hP⟩ : ∃ P, (256 : Nat) ^ k = P := ⟨_, rfl⟩
        rw [hP] at hV1 ⊢
        omega

theorem pow256_ciL (L : Nat) : 256 ^ (L * ciL) = limbR L := by
  show 256 ^ (L * ciL) = 2 ^ (biL * L)
  rw [ciL, biL, show (256 : Nat) = 2 ^ 8 from rfl, ← pow_mul]
  congr 1
  ring

theorem bytesToNat_natToBytes (er : ExtRep) (her : er ≠ ExtRep.invalid)
    (v k : Nat) (h : v < 256 ^ k) : bytesToNat er (natToBytes er v k) = v := by
  cases er with
  | le => exact bytesToNatLE_natToBytesLE v k h
  | be =>
    simp only [bytesToNat, natToBytes, List.reverse_reverse]
    exact bytesToNatLE_natToBytesLE v k h
  | invalid => exact absurd rfl her

theorem length_natToBytes (er : ExtRep) (her : er ≠ ExtRep.invalid) (v k : Nat) :
    (natToBytes er v k).length = k := by
  cases er with
  | le => exact length_natToBytesLE v k
  | be => simp [natToBytes, length_natToBytesLE]
  | invalid => exact absurd rfl her

theorem sigBytes_natToBytes_le (er : ExtRep) (v k : Nat) :
    sigBytes er (natToBytes er v k) ≤ k := by
  cases er with
  | le =>
    have h := sigBytesLE_le_length (natToBytesLE v k)
    rwa [length_natToBytesLE] at h
  | be =>
    simp only [sigBytes, natToBytes, List.reverse_reverse]
    have h := sigBytesLE_le_length (natToBytesLE v k)
    rwa [length_natToBytesLE] at h
  | invalid => exact Nat.zero_le k

theorem bytesToNat_lt_iff (er : ExtRep) (her : er ≠ ExtRep.invalid)
    (bs : List Nat) (hb : ∀ b ∈ bs, b < 256) (k : Nat) :
    bytesToNat er bs < 256 ^ k ↔ sigBytes er bs ≤ k := by
  cases er with
  | le => exact bytesToNatLE_lt_iff bs hb k
  | be =>
    exact bytesToNatLE_lt_iff bs.reverse (fun x hx => hb x (List.mem_reverse.mp hx)) k
  | invalid => exact absurd rfl her

/-- Claim C2: for every valid modulus m and value v below m, writing v into
a buffer of exactly m's byte width and reading the buffer back succeeds and
recovers exactly v, for both endiannesses. -/
theorem c2_round_trip (m : Modulus) (v : Nat) (er : ExtRep) (hm : m.Valid)
    (hv : v < m.p) (her : er ≠ ExtRep.invalid) :
    mbedtls_mpi_mod_raw_write v m (m.limbs * ciL) er =
      WriteResult.ok (natToBytes er v (m.limbs * ciL)) ∧
    mbedtls_mpi_mod_raw_read m (natToBytes er v (m.limbs * ciL)) er =
      ReadResult.ok v := by
  obtain ⟨hL, hp1, hodd, hltR, hrr⟩ := hm
  have hv256 : v < 256 ^ (m.limbs * ciL) := by rw [pow256_ciL]; omega
  constructor
  · unfold mbedtls_mpi_mod_raw_write
    rw [if_neg her, if_neg (lt_irrefl _)]
  · unfold mbedtls_mpi_mod_raw_read
    rw [if_neg her,
      if_neg (by have := sigBytes_natToBytes_le er v (m.limbs * ciL); omega),
      bytesToNat_natToBytes er her v _ hv256, if_pos hv]

/-- Witness for C2: the one-limb modulus 13 and the value 9, big-endian. -/
theorem c2_round_trip_witness :
    mbedtls_mpi_mod_raw_write 9 m13 (m13.limbs * ciL) ExtRep.be =
      WriteResult.ok (natToBytes ExtRep.be 9 (m13.limbs * ciL)) ∧
    mbedtls_mpi_mod_raw_read m13 (natToBytes ExtRep.be 9 (m13.limbs * ciL)) ExtRep.be =
      ReadResult.ok 9 :=
  c2_round_trip m13 9 ExtRep.be ⟨by decide, by decide, by decide, by decide, rfl⟩
    (by decide) (by decide)

/-- Claim C7: read reports BadInputData on an invalid representation tag;
otherwise it reports BufferTooSmall exactly when the significant bytes of
the input encode a value too wide for the L-limb capacity, BadInputData
exactly when the (fitting) decoded value is not strictly below the modulus,
and success with the decoded plain-form value otherwise. -/
theorem c7_read_errors (m : Modulus) (input : List Nat) (er : ExtRep)
    (hb : ∀ b ∈ input, b < 256) (her : er ≠ ExtRep.invalid) :
    (mbedtls_mpi_mod_raw_read m input ExtRep.invalid = ReadResult.badInputData) ∧
    (mbedtls_mpi_mod_raw_read m input er = ReadResult.bufferTooSmall ↔
      limbR m.limbs ≤ bytesToNat er input) ∧
    (mbedtls_mpi_mod_raw_read m input er = ReadResult.badInputData ↔
      bytesToNat er input < limbR m.limbs ∧ m.p ≤ bytesToNat er input) ∧
    (bytesToNat er input < limbR m.limbs → bytesToNat er input < m.p →
      mbedtls_mpi_mod_raw_read m input er = ReadResult.ok (bytesToNat er input)) := by
  have hfirst : mbedtls_mpi_mod_raw_read m input ExtRep.invalid =
      ReadResult.badInputData := by
    unfold mbedtls_mpi_mod_raw_read
    rw [if_pos rfl]
  have hread : mbedtls_mpi_mod_raw_read m input er =
      (if m.limbs * ciL < sigBytes er input then ReadResult.bufferTooSmall
       else if bytesToNat er input < m.p then ReadResult.ok (bytesToNat er input)
       else ReadResult.badInputData) := by
    unfold mbedtls_mpi_mod_raw_read
    rw [if_neg her]
  have hiff : m.limbs * ciL < sigBytes er input ↔
      limbR m.limbs ≤ bytesToNat er input := by
    have h := bytesToNat_lt_iff er her input hb (m.limbs * ciL)
    rw [pow256_ciL] at h
    omega
  refine ⟨hfirst, ?_, ?_, ?_⟩
  · rw [hread]
    by_cases h1 : m.limbs * ciL < sigBytes er input
    · rw [if_pos h1]
      exact ⟨fun _ => hiff.mp h1, fun _ => rfl⟩
    · rw [if_neg h1]
      by_cases h2 : bytesToNat er input < m.p
      · rw [if_pos h2]
        exact ⟨fun hc => absurd hc (by simp), fun hR => absurd hR (by omega)⟩
      · rw [if_neg h2]
        exact ⟨fun hc => absurd hc (by simp), fun hR => absurd hR (by omega)⟩
  · rw [hread]
    by_cases h1 : m.limbs * ciL < sigBytes er input
    · rw [if_pos h1]
      have hR := hiff.mp h1
      exact ⟨fun hc => absurd hc (by simp), fun hc => absurd hc.1 (by omega)⟩
    · rw [if_neg h1]
      by_cases h2 : bytesToNat er input < m.p
      · rw [if_pos h2]
        exact ⟨fun hc => absurd hc (by simp), fun hc => absurd hc.2 (by omega)⟩
      · rw [if_neg h2]
        exact ⟨fun _ => ⟨by omega, by omega⟩, fun _ => rfl⟩
  · intro hVR hVp
    rw [hread, if_neg (by omega), if_pos hVp]

/-- Witness for C7: reading the single byte 9 little-endian under the
one-limb modulus 13 succeeds with the decoded value. -/
theorem c7_read_errors_witness :
    mbedtls_mpi_mod_raw_read m13 (9 :: List.nil) ExtRep.le =
      ReadResult.ok (bytesToNat ExtRep.le (9 :: List.nil)) :=
  (c7_read_errors m13 (9 :: List.nil) ExtRep.le (by decide) (by decide)).2.2.2
    (by decide) (by decide)

/-- Claim C8: write reports BadInputData on an invalid representation tag;
otherwise it reports BufferTooSmall exactly when the output length is below
the full declared width of A (the L limbs dictated by m, regardless of A's
numeric value), and on success fills exactly output_length bytes in the
requested endianness which decode back to A. -/
theorem c8_write_errors (A : Nat) (m : Modulus) (len : Nat) (er : ExtRep)
    (hA : A < limbR m.limbs) (her : er ≠ ExtRep.invalid) :
    (mbedtls_mpi_mod_raw_write A m len ExtRep.invalid = WriteResult.badInputData) ∧
    (mbedtls_mpi_mod_raw_write A m len er = WriteResult.bufferTooSmall ↔
      len < m.limbs * ciL) ∧
    (m.limbs * ciL ≤ len →
      mbedtls_mpi_mod_raw_write A m len er = WriteResult.ok (natToBytes er A len) ∧
      (natToBytes er A len).length = len ∧
      bytesToNat er (natToBytes er A len) = A) := by
  have hfirst : mbedtls_mpi_mod_raw_write A m len ExtRep.invalid =
      WriteResult.badInputData := by
    unfold mbedtls_mpi_mod_raw_write
    rw [if_pos rfl]
  have hwrite : mbedtls_mpi_mod_raw_write A m len er =
      (if len < m.limbs * ciL then WriteResult.bufferTooSmall
       else WriteResult.ok (natToBytes er A len)) := by
    unfold mbedtls_mpi_mod_raw_write
    rw [if_neg her]
  refine ⟨hfirst, ?_, ?_⟩
  · rw [hwrite]
    by_cases h1 : len < m.limbs * ciL
    · rw [if_pos h1]
      exact ⟨fun _ => h1, fun _ => rfl⟩
    · rw [if_neg h1]
      exact ⟨fun hc => absurd hc (by simp), fun hlen => absurd hlen h1⟩
  · intro hlen
    have hA256 : A < 256 ^ len := by
      have h1 : A < 256 ^ (m.limbs * ciL) := by rw [pow256_ciL]; exact hA
      exact lt_of_lt_of_le h1 (Nat.pow_le_pow_right (by omega) hlen)
    refine ⟨?_, length_natToBytes er her A len,
      bytesToNat_natToBytes er her A len hA256⟩
    rw [hwrite, if_neg (by omega)]

/-- Witness for C8: under the one-limb modulus 13, a 3-byte buffer is too
small for the declared 8-byte width even though the value 9 would fit, and
an 8-byte buffer succeeds. -/
theorem c8_write_errors_witness :
    mbedtls_mpi_mod_raw_write 9 m13 3 ExtRep.le = WriteResult.bufferTooSmall ∧
    (mbedtls_mpi_mod_raw_write 9 m13 8 ExtRep.le =
        WriteResult.ok (natToBytes ExtRep.le 9 8) ∧
      (natToBytes ExtRep.le 9 8).length = 8 ∧
      bytesToNat ExtRep.le (natToBytes ExtRep.le 9 8) = 9) :=
  ⟨(c8_write_errors 9 m13 3 ExtRep.le (by decide) (by decide)).2.1.mpr (by decide),
   (c8_write_errors 9 m13 8 ExtRep.le (by decide) (by decide)).2.2 (by decide)⟩

/-! Helper lemmas: the memory model. -/

theorem length_natToLimbs (v k : Nat) : (natToLimbs v k).length = k := by
  induction k generalizing v with
  | zero => rfl
  | succ k ih => simp [natToLimbs, ih]

theorem writeRange_outside (mem : Mem) (addr : Nat) (vals : List Nat) (i : Nat)
    (h : i < addr ∨ addr + vals.length ≤ i) :
    writeRange mem addr vals i = mem i := by
  simp only [writeRange]
  rw [if_neg (by omega)]

theorem write_ok_length {A : Nat} {m : Modulus} {len : Nat} {er : ExtRep}
    {bytes : List Nat}
    (h : mbedtls_mpi_mod_raw_write A m len er = WriteResult.ok bytes) :
    bytes.length = len := by
  unfold mbedtls_mpi_mod_raw_write at h
  by_cases h1 : er = ExtRep.invalid
  · rw [if_pos h1] at h
    exact absurd h (by simp)
  · rw [if_neg h1] at h
    by_cases h2 : len < m.limbs * ciL
    · rw [if_pos h2] at h
      exact absurd h (by simp)
    · rw [if_neg h2] at h
      injection h with h3
      rw [← h3, length_natToBytes er h1]

/-- Claim C10: every operation writes only its output buffers.  In the
memory model, add, sub and neg leave every address outside the X region
unchanged, write leaves every address outside the output region unchanged,
and inv_prime leaves every address outside the X and T regions unchanged;
in particular the const operands A, B, N, RR and the modulus descriptor
are never modified. -/
theorem c10_frame (mem : Mem) (xA aA bA nA rrA tA outA : Nat) (N : Modulus)
    (L outLen : Nat) (er : ExtRep) (i : Nat) :
    (i < xA ∨ xA + N.limbs ≤ i →
      mbedtls_mpi_mod_raw_add_mem mem xA aA bA N i = mem i) ∧
    (i < xA ∨ xA + N.limbs ≤ i →
      mbedtls_mpi_mod_raw_sub_mem mem xA aA bA N i = mem i) ∧
    (i < xA ∨ xA + N.limbs ≤ i →
      mbedtls_mpi_mod_raw_neg_mem mem xA aA N i = mem i) ∧
    (i < outA ∨ outA + outLen ≤ i →
      mbedtls_mpi_mod_raw_write_mem mem aA N outA outLen er i = mem i) ∧
    ((i < xA ∨ xA + L ≤ i) →
      (i < tA ∨ tA + mbedtls_mpi_mod_raw_inv_prime_working_limbs L ≤ i) →
      mbedtls_mpi_mod_raw_inv_prime_mem mem xA aA nA L rrA tA i = mem i) := by
  refine ⟨?_, ?_, ?_, ?_, ?_⟩
  · intro h
    simp only [mbedtls_mpi_mod_raw_add_mem]
    exact writeRange_outside mem xA _ i (by rw [length_natToLimbs]; exact h)
  · intro h
    simp only [mbedtls_mpi_mod_raw_sub_mem]
    exact writeRange_outside mem xA _ i (by rw [length_natToLimbs]; exact h)
  · intro h
    simp only [mbedtls_mpi_mod_raw_neg_mem]
    exact writeRange_outside mem xA _ i (by rw [length_natToLimbs]; exact h)
  · intro h
    simp only [mbedtls_mpi_mod_raw_write_mem]
    cases hw : mbedtls_mpi_mod_raw_write (limbsToNat (readRange mem aA N.limbs))
        N outLen er with
    | ok bytes =>
      show writeRange mem outA bytes i = mem i
      exact writeRange_outside mem outA bytes i (by rw [write_ok_length hw]; exact h)
    | bufferTooSmall => rfl
    | badInputData => rfl
  · intro hX hT
    simp only [mbedtls_mpi_mod_raw_inv_prime_mem]
    rw [writeRange_outside _ xA _ i (by rw [length_natToLimbs]; exact hX),
      writeRange_outside _ tA _ i (by rw [List.length_replicate]; exact hT)]

/-- A concrete memory for the frame witness. -/
def mem0 : Mem := fun i => i + 1

/-- Witness for C10 with concrete disjoint regions: address 5 lies outside
every output region and is untouched by each operation. -/
theorem c10_frame_witness :
    mbedtls_mpi_mod_raw_add_mem mem0 0 2 4 m13 5 = mem0 5 ∧
    mbedtls_mpi_mod_raw_sub_mem mem0 0 2 4 m13 5 = mem0 5 ∧
    mbedtls_mpi_mod_raw_neg_mem mem0 0 2 m13 5 = mem0 5 ∧
    mbedtls_mpi_mod_raw_write_mem mem0 2 m13 20 8 ExtRep.le 5 = mem0 5 ∧
    mbedtls_mpi_mod_raw_inv_prime_mem mem0 0 2 6 1 8 40 5 = mem0 5 := by
  have h := c10_frame mem0 0 2 4 6 8 40 20 m13 1 8 ExtRep.le 5
  exact ⟨h.1 (by decide), h.2.1 (by decide), h.2.2.1 (by decide),
    h.2.2.2.1 (by decide), h.2.2.2.2 (by decide) (by decide)⟩

end BignumModRaw
